import Mathlib

/-
Verification of the hash-sequence matching engine (hash_match.py):
bit-population-count table, pairwise bit-distance, dynamic time warping
with path-length normalization, Keogh envelope lower bound, and the
candidate matching loop.

Modelling conventions:
- numpy uint16 buffers are modelled with Nat entries; the specification
  makes absence of fixed-width overflow a documented precondition of the
  whole pipeline, so no wraparound is modelled.
- Python float results of the two normalizing divisions are modelled by
  the type FVal below, with explicit positive-infinity and NaN values and
  IEEE comparison semantics (any comparison with NaN is false).
- scipy maximum_filter1d / minimum_filter1d are modelled with their
  documented semantics: a window of full width given by the size argument,
  spanning indices i - size / 2 .. i - size / 2 + size - 1, boundaries
  handled by reflection (the default reflect mode).
- numpy searchsorted is modelled by the standard bisection loop it
  implements; numpy argmin returns the first position of the minimum.
- numpy argsort is modelled by a sort on indices by score (the order among
  tied scores is unspecified in the source and irrelevant here; concrete
  instances used below avoid ties).
-/

namespace HashMatch

/-- Float-result values produced by the normalizing divisions in the source:
an ordinary (rational) value, positive infinity, or NaN. -/
inductive FVal where
  | val (q : ℚ)
  | inf
  | nan
deriving DecidableEq

/-- Division of two nonnegative integers as Python float division: division
by zero yields NaN for a zero numerator and positive infinity otherwise. -/
def fdiv (a b : Nat) : FVal :=
  if b = 0 then (if a = 0 then FVal.nan else FVal.inf) else FVal.val ((a : ℚ) / (b : ℚ))

/-- IEEE comparison x less-or-equal y: any comparison involving NaN is false. -/
def fle : FVal → FVal → Bool
  | FVal.nan, _ => false
  | _, FVal.nan => false
  | FVal.inf, FVal.inf => true
  | FVal.inf, FVal.val _ => false
  | FVal.val _, FVal.inf => true
  | FVal.val a, FVal.val b => decide (a ≤ b)

/-- IEEE comparison x strictly-less y: any comparison involving NaN is false. -/
def flt : FVal → FVal → Bool
  | FVal.nan, _ => false
  | _, FVal.nan => false
  | FVal.inf, _ => false
  | FVal.val _, FVal.inf => true
  | FVal.val a, FVal.val b => decide (a < b)

/-- Sort order used by numpy sorting on floats: NaN compares greatest. -/
def fle_sort : FVal → FVal → Bool
  | _, FVal.nan => true
  | FVal.nan, _ => false
  | FVal.inf, FVal.inf => true
  | FVal.val _, FVal.inf => true
  | FVal.inf, FVal.val _ => false
  | FVal.val a, FVal.val b => decide (a ≤ b)

/-- Symbol bit width of the source (N_BITS = 16). -/
def N_BITS : Nat := 16

/-- Structural-recursion engine for bits_set: the first argument is fuel that
only drives termination and never runs out when it is at least n, since the
table recurrence passes from n to n / 2. -/
def bits_set_go : Nat → Nat → Nat
  | _, 0 => 0
  | 0, _ + 1 => 0
  | f + 1, n + 1 => ((n + 1) &&& 1) + bits_set_go f ((n + 1) / 2)

/-- Population-count table of the source, built by the recurrence
table at i equals (i AND 1) plus table at i / 2, with table at 0 equal 0. -/
def bits_set (n : Nat) : Nat :=
  bits_set_go n n

theorem bits_set_go_zero (f : Nat) : bits_set_go f 0 = 0 := by
  cases f <;> rfl

theorem bits_set_go_succ (f n : Nat) :
    bits_set_go (f + 1) (n + 1) = ((n + 1) &&& 1) + bits_set_go f ((n + 1) / 2) := rfl

/-- Fuel irrelevance for bits_set_go: any fuel at least n computes the same
value, so bits_set satisfies the table recurrence of the source. -/
theorem bits_set_go_congr : ∀ n f g : Nat, n ≤ f → n ≤ g → bits_set_go f n = bits_set_go g n := by
  intro n
  induction n using Nat.strong_induction_on with
  | _ n ih =>
    intro f g hf hg
    cases n with
    | zero => rw [bits_set_go_zero, bits_set_go_zero]
    | succ m =>
      obtain ⟨f, rfl⟩ : ∃ k, f = k + 1 := ⟨f - 1, by omega⟩
      obtain ⟨g, rfl⟩ : ∃ k, g = k + 1 := ⟨g - 1, by omega⟩
      rw [bits_set_go_succ, bits_set_go_succ,
        ih ((m + 1) / 2) (by omega) f g (by omega) (by omega)]

/-- Recurrence of the source table: for positive n, bits_set n equals
(n AND 1) plus bits_set (n / 2). -/
theorem bits_set_rec (n : Nat) (h : 0 < n) : bits_set n = (n &&& 1) + bits_set (n / 2) := by
  obtain ⟨m, rfl⟩ : ∃ k, n = k + 1 := ⟨n - 1, by omega⟩
  show bits_set_go (m + 1) (m + 1) = _
  rw [bits_set_go_succ]
  unfold bits_set
  rw [bits_set_go_congr ((m + 1) / 2) m ((m + 1) / 2) (by omega) (by omega)]

/-- Conversion of a sequence of integers into bit-vector rows: row for n has
entry i equal to (n right-shift i) AND 1, for i below N_BITS. -/
def ints_to_vectors (int_sequence : List Nat) : List (List Nat) :=
  int_sequence.map (fun n => (List.range N_BITS).map (fun i => (n >>> i) &&& 1))

/-- Row summation of vectors_to_ints: the entry at index i contributes
v times 2 to the power (i times v), exactly the elementwise product
vectors times 2 to the power (arange times vectors) of the source, summed. -/
def vec_to_int_row (i : Nat) : List Nat → Nat
  | [] => 0
  | b :: t => b * 2 ^ (i * b) + vec_to_int_row (i + 1) t

/-- Conversion of a matrix of bit-vector rows back to a vector of integers. -/
def vectors_to_ints (vectors : List (List Nat)) : List Nat :=
  vectors.map (vec_to_int_row 0)

/-- Matrix entry access with the conventions of the embedding: row i, column j. -/
def mget (M : List (List Nat)) (i j : Nat) : Nat :=
  (M.getD i []).getD j 0

/-- Matrix entry update; out-of-range updates leave the matrix unchanged. -/
def mset (M : List (List Nat)) (i j : Nat) (v : Nat) : List (List Nat) :=
  M.set i ((M.getD i []).set j v)

/-- Pairwise bit-distance matrix of the source (int_dist): entry (m, n) is
the popcount of x at m XOR y at n. -/
def int_dist (x y : List Nat) : List (List Nat) :=
  x.map (fun a => y.map (fun b => bits_set (a ^^^ b)))

/-- Joint state of the two buffers mutated by dtw_core: the cumulative cost
matrix D and the traceback path-length matrix P. -/
structure DtwState where
  D : List (List Nat)
  P : List (List Nat)
deriving DecidableEq

/-- One inner-loop iteration of dtw_core for loop indices (i, j), updating
cell (i + 1, j + 1): the diagonal guard is tried first, then the horizontal
guard, then the vertical guard, each with the update of the source. -/
def dtw_cell_step (pen : Nat) (s : DtwState) (i j : Nat) : DtwState :=
  if mget s.D i j ≤ mget s.D i (j + 1) + pen ∧ mget s.D i j ≤ mget s.D (i + 1) j + pen then
    { D := mset s.D (i + 1) (j + 1) (mget s.D (i + 1) (j + 1) + mget s.D i j),
      P := mset s.P (i + 1) (j + 1) (mget s.P (i + 1) (j + 1) + mget s.P i j + 1) }
  else if mget s.D i (j + 1) ≤ mget s.D (i + 1) j ∧ mget s.D i (j + 1) + pen ≤ mget s.D i j then
    { D := mset s.D (i + 1) (j + 1) (mget s.D (i + 1) (j + 1) + mget s.D i (j + 1) + pen),
      P := mset s.P (i + 1) (j + 1) (mget s.P (i + 1) (j + 1) + mget s.P i (j + 1) + 1) }
  else if mget s.D (i + 1) j ≤ mget s.D i (j + 1) ∧ mget s.D (i + 1) j + pen ≤ mget s.D i j then
    { D := mset s.D (i + 1) (j + 1) (mget s.D (i + 1) (j + 1) + mget s.D (i + 1) j + pen),
      P := mset s.P (i + 1) (j + 1) (mget s.P (i + 1) (j + 1) + mget s.P (i + 1) j + 1) }
  else s

/-- Row-major enumeration of the loop indices of dtw_core: i from 0 to
rows - 2, and for each i, j from 0 to cols - 2. -/
def row_major_cells (rows cols : Nat) : List (Nat × Nat) :=
  ((List.range (rows - 1)).map (fun i => (List.range (cols - 1)).map (fun j => (i, j)))).flatten

/-- Core dynamic-programming relaxation of the source (dtw_core), processing
cells in row-major order in place over the state. -/
def dtw_core (pen : Nat) (s : DtwState) : DtwState :=
  (row_major_cells s.D.length (s.D.headD []).length).foldl
    (fun t c => dtw_cell_step pen t c.1 c.2) s

/-- First position of the minimum of a list (numpy argmin). -/
def argmin (l : List Nat) : Nat :=
  (List.range l.length).foldl (fun b k => if l.getD k 0 < l.getD b 0 then k else b) 0

/-- Integer offset computed by dtw from the gully proportion: the floor of
gully times the smaller matrix dimension. -/
def dtw_offset (gully : ℚ) (rows cols : Nat) : Nat :=
  (⌊gully * ((min rows cols : Nat) : ℚ)⌋).toNat

/-- Endpoint selection of dtw after the relaxation: the first minimum position
of the last column at or beyond the offset and of the last row at or beyond
the offset; when the last-row candidate cost exceeds the last-column candidate
cost the column index is forced to the final column, otherwise the row index
is forced to the final row. -/
def dtw_traceback (D : List (List Nat)) (g : Nat) : Nat × Nat :=
  let rows := D.length
  let cols := (D.headD []).length
  let i := argmin ((List.range' g (rows - g)).map (fun k => mget D k (cols - 1))) + g
  let j := argmin ((List.range' g (cols - g)).map (fun k => mget D (rows - 1) k)) + g
  if mget D (rows - 1) j > mget D i (cols - 1) then (i, cols - 1) else (rows - 1, j)

/-- Zero-initialized traceback matrix of dtw, with the shape of the
distance matrix. -/
def dtw_zeros (M : List (List Nat)) : List (List Nat) :=
  M.map (fun row => row.map (fun _ => 0))

/-- State of the two dtw buffers after the in-place relaxation of dtw_core
starting from the distance matrix and the zero path-length matrix. -/
def dtw_relaxed (distance_matrix : List (List Nat)) (penalty : Nat) : DtwState :=
  dtw_core penalty ⟨distance_matrix, dtw_zeros distance_matrix⟩

/-- Full dtw of the source: zero-initialized path-length matrix, in-place
relaxation, endpoint selection, and the final path-length-normalized score. -/
def dtw (distance_matrix : List (List Nat)) (gully : ℚ) (penalty : Nat) : FVal :=
  let s := dtw_relaxed distance_matrix penalty
  let g := dtw_offset gully distance_matrix.length ((distance_matrix.headD []).length)
  let e := dtw_traceback s.D g
  fdiv (mget s.D e.1 e.2) (mget s.P e.1 e.2)

/-- Cumulative cost at the endpoint selected by dtw: the numerator of the
final normalized score. -/
def dtw_endpoint_cost (distance_matrix : List (List Nat)) (gully : ℚ) (penalty : Nat) : Nat :=
  let s := dtw_relaxed distance_matrix penalty
  let g := dtw_offset gully distance_matrix.length ((distance_matrix.headD []).length)
  let e := dtw_traceback s.D g
  mget s.D e.1 e.2

/-- Index reflection of the scipy boundary mode reflect: the infinite extension
repeats the input forwards and backwards with period two times the length. -/
def reflect_index (n : Nat) (t : Int) : Nat :=
  let m := (t % ((2 * n : Nat) : Int)).toNat
  if m < n then m else 2 * n - 1 - m

/-- Sliding window of the scipy 1-d filters for output position i and window
size sz: input positions i - sz / 2 .. i - sz / 2 + sz - 1, reflected at the
boundaries. -/
def filter_window (x : List Nat) (sz : Nat) (i : Nat) : List Nat :=
  (List.range sz).map (fun (k : Nat) =>
    x.getD (reflect_index x.length ((i : Int) - ((sz / 2 : Nat) : Int) + (k : Int))) 0)

/-- Model of scipy maximum_filter1d with the given window size. -/
def maximum_filter1d (x : List Nat) (sz : Nat) : List Nat :=
  (List.range x.length).map (fun i =>
    let w := filter_window x sz i
    w.foldl max (w.headD 0))

/-- Model of scipy minimum_filter1d with the given window size. -/
def minimum_filter1d (x : List Nat) (sz : Nat) : List Nat :=
  (List.range x.length).map (fun i =>
    let w := filter_window x sz i
    w.foldl min (w.headD 0))

/-- Envelope computation of the source (keogh_envelopes): the radius argument
r is passed to the scipy filters as the window size. -/
def keogh_envelopes (x : List Nat) (r : Nat) : List Nat × List Nat :=
  (maximum_filter1d x r, minimum_filter1d x r)

/-- Keogh lower bound of the source (lb_keogh): trim the longer operand to the
shorter length, accumulate popcount of y XOR u where y exceeds u and popcount
of y XOR l where y is below l, and normalize by the trimmed length. -/
def lb_keogh (u l y : List Nat) : FVal :=
  let y2 := if u.length < y.length then y.take u.length else y
  let u2 := if u.length < y.length then u else u.take y.length
  let l2 := if u.length < y.length then l else l.take y.length
  let bound :=
    ((y2.zip u2).map (fun p => if p.2 < p.1 then bits_set (p.1 ^^^ p.2) else 0)).sum +
    ((y2.zip l2).map (fun p => if p.1 < p.2 then bits_set (p.1 ^^^ p.2) else 0)).sum
  fdiv bound u2.length

/-- Bisection loop of numpy searchsorted, parameterized by the comparison used
for the left and right variants; the fuel argument only drives structural
termination and never runs out when it is at least hi - lo. -/
def searchsorted_go (pred : ℚ → Bool) (a : List ℚ) : Nat → Nat → Nat → Nat
  | 0, lo, _ => lo
  | f + 1, lo, hi =>
    if lo < hi then
      if pred (a.getD ((lo + hi) / 2) 0) then searchsorted_go pred a f ((lo + hi) / 2 + 1) hi
      else searchsorted_go pred a f lo ((lo + hi) / 2)
    else lo

/-- numpy searchsorted with side left: first insertion position, found by
bisection with the strict comparison. -/
def searchsorted_left (a : List ℚ) (v : ℚ) : Nat :=
  searchsorted_go (fun x => decide (x < v)) a a.length 0 a.length

/-- numpy searchsorted with side right: last insertion position, found by
bisection with the non-strict comparison. -/
def searchsorted_right (a : List ℚ) (v : ℚ) : Nat :=
  searchsorted_go (fun x => decide (x ≤ v)) a a.length 0 a.length

/-- Accumulator of the candidate loop of match_one_sequence: the match and
score lists and the best score so far used for lower-bound pruning. -/
structure MatchState where
  match_list : List Nat
  score_list : List FVal
  best : FVal
deriving DecidableEq

/-- One iteration of the candidate loop of match_one_sequence: compute the
Keogh lower bound, and when it is below the best score so far run the full
distance-matrix and dtw computation, record the match and score, and lower
the best score when improved. -/
def match_step (query : List Nat) (sequences : List (List Nat)) (gully : ℚ) (penalty : Nat)
    (u l : List Nat) (st : MatchState) (n : Nat) : MatchState :=
  let kb := lb_keogh u l (sequences.getD n [])
  if flt kb st.best then
    let score := dtw (int_dist query (sequences.getD n [])) gully penalty
    { match_list := st.match_list ++ [n], score_list := st.score_list ++ [score],
      best := if flt score st.best then score else st.best }
  else st

/-- Index sort of numpy argsort on a list of float scores, with the numpy
float sort order (NaN greatest); tie order is unspecified in the source and
modelled as stable. -/
def argsort (scores : List FVal) : List Nat :=
  List.insertionSort
    (fun i j => fle_sort (scores.getD i FVal.nan) (scores.getD j FVal.nan) = true)
    (List.range scores.length)

/-- Full matching routine of the source (match_one_sequence): binary-search
the tolerance window in the sorted length list, compute the query envelopes
once, run the pruned candidate loop from start to stop, and reorder matches
and scores by ascending score. -/
def match_one_sequence (query : List Nat) (query_length : ℚ) (sequences : List (List Nat))
    (lengths : List ℚ) (length_tolerance : ℚ) (radius : Nat) (gully : ℚ) (penalty : Nat) :
    List Nat × List FVal :=
  let start := searchsorted_left lengths ((1 - length_tolerance) * query_length)
  let stop := searchsorted_right lengths ((1 + length_tolerance) * query_length)
  let u := (keogh_envelopes query radius).1
  let l := (keogh_envelopes query radius).2
  let st := (List.range' start (stop - start)).foldl
    (match_step query sequences gully penalty u l) ⟨[], [], FVal.inf⟩
  let idxs := argsort st.score_list
  (idxs.map (st.match_list.getD · 0), idxs.map (st.score_list.getD · FVal.nan))

/-- Definition following the words of the spec claim, for comparison with the
source envelope: the maximum of x over the sliding window of indices i - r
through i + r (full width 2 r + 1), clipped to the valid index range. -/
def claimed_window_max (x : List Nat) (r i : Nat) : Nat :=
  (((List.range x.length).filter (fun t => decide (i - r ≤ t ∧ t ≤ i + r))).map
    (x.getD · 0)).foldl max 0

section ClaimProofs

attribute [local semireducible] Rat.add Rat.mul Rat.inv Rat.sub

theorem getD_range_map (n : Nat) (f : Nat → Nat) (i : Nat) (h : i < n) :
    ((List.range n).map f).getD i 0 = f i := by
  rw [List.getD_eq_getElem _ _ (by simpa using h)]
  simp

theorem foldl_max_init_le : ∀ (l : List Nat) (a : Nat), a ≤ l.foldl max a := by
  intro l
  induction l with
  | nil => intro a; exact Nat.le_refl a
  | cons h t ih => intro a; exact le_trans (le_max_left a h) (ih (max a h))

theorem foldl_max_le_of_mem : ∀ (l : List Nat) (a b : Nat), b ∈ l → b ≤ l.foldl max a := by
  intro l
  induction l with
  | nil => intro a b hb; cases hb
  | cons h t ih =>
    intro a b hb
    rcases List.mem_cons.mp hb with rfl | hb
    · exact le_trans (le_max_right a b) (foldl_max_init_le t (max a b))
    · exact ih (max a h) b hb

theorem foldl_max_mem : ∀ (l : List Nat) (a : Nat), l.foldl max a = a ∨ l.foldl max a ∈ l := by
  intro l
  induction l with
  | nil => intro a; exact Or.inl rfl
  | cons h t ih =>
    intro a
    rcases ih (max a h) with heq | hmem
    · rcases max_choice a h with hc | hc
      · exact Or.inl (by rw [List.foldl_cons, heq, hc])
      · exact Or.inr (by rw [List.foldl_cons, heq, hc]; exact List.mem_cons_self h t)
    · exact Or.inr (List.mem_cons_of_mem h hmem)

theorem foldl_min_init_ge : ∀ (l : List Nat) (a : Nat), l.foldl min a ≤ a := by
  intro l
  induction l with
  | nil => intro a; exact Nat.le_refl a
  | cons h t ih => intro a; exact le_trans (ih (min a h)) (min_le_left a h)

theorem foldl_min_le_of_mem : ∀ (l : List Nat) (a b : Nat), b ∈ l → l.foldl min a ≤ b := by
  intro l
  induction l with
  | nil => intro a b hb; cases hb
  | cons h t ih =>
    intro a b hb
    rcases List.mem_cons.mp hb with rfl | hb
    · exact le_trans (foldl_min_init_ge t (min a b)) (min_le_right a b)
    · exact ih (min a h) b hb

theorem foldl_min_mem : ∀ (l : List Nat) (a : Nat), l.foldl min a = a ∨ l.foldl min a ∈ l := by
  intro l
  induction l with
  | nil => intro a; exact Or.inl rfl
  | cons h t ih =>
    intro a
    rcases ih (min a h) with heq | hmem
    · rcases min_choice a h with hc | hc
      · exact Or.inl (by rw [List.foldl_cons, heq, hc])
      · exact Or.inr (by rw [List.foldl_cons, heq, hc]; exact List.mem_cons_self h t)
    · exact Or.inr (List.mem_cons_of_mem h hmem)

theorem headD_mem (l : List Nat) (hl : l ≠ []) : l.headD 0 ∈ l := by
  cases l with
  | nil => exact absurd rfl hl
  | cons h t => exact List.mem_cons_self h t

theorem filter_window_ne_nil (x : List Nat) (r i : Nat) (hr : 1 ≤ r) :
    filter_window x r i ≠ [] := by
  have hlen : (filter_window x r i).length = r := by
    unfold filter_window
    rw [List.length_map, List.length_range]
  intro hcon
  rw [hcon] at hlen
  simp at hlen
  omega

/-- CLAIM C1 (code_bug evaluation). The Keogh bound computed by lb_keogh from
the envelope of x = [0, 0] against y = [1, 0] equals one half, while the true
path-length-normalized dtw cost of the same pair at gully 0 and penalty 0
equals zero: the claimed lower-bound contract of lb_keogh fails. -/
theorem C1_lb_keogh_exceeds_dtw :
    lb_keogh (keogh_envelopes [0, 0] 1).1 (keogh_envelopes [0, 0] 1).2 [1, 0] = FVal.val (1 / 2)
  ∧ dtw (int_dist [0, 0] [1, 0]) 0 0 = FVal.val 0
  ∧ fle (lb_keogh (keogh_envelopes [0, 0] 1).1 (keogh_envelopes [0, 0] 1).2 [1, 0])
      (dtw (int_dist [0, 0] [1, 0]) 0 0) = false := by
  exact ⟨by decide, by decide, by decide⟩

/-- CLAIM C6 counterexample. On the one-by-one all-zero distance matrix with
gully 0 and penalty 0, dtw divides zero cost by zero path length and returns
NaN, which is not greater than or equal to zero under float comparison. -/
theorem C6_dtw_nan_counterexample :
    dtw [[0]] 0 0 = FVal.nan ∧ fle (FVal.val 0) (dtw [[0]] 0 0) = false := by
  exact ⟨by decide, by decide⟩

/-- CLAIM C6 (amended). For every distance matrix of shape at least one by
one, gully and penalty, the dtw score is a float greater than or equal to
zero (positive infinity allowed), provided the cost and the path length at
the selected endpoint are not both zero (in that remaining case the result
is NaN). -/
theorem C6_dtw_score_nonneg (D : List (List Nat)) (gully : ℚ) (penalty : Nat)
    (hrows : 0 < D.length) (hcols : 0 < (D.headD []).length)
    (h : ¬(mget (dtw_relaxed D penalty).D
        (dtw_traceback (dtw_relaxed D penalty).D
          (dtw_offset gully D.length (D.headD []).length)).1
        (dtw_traceback (dtw_relaxed D penalty).D
          (dtw_offset gully D.length (D.headD []).length)).2 = 0
      ∧ mget (dtw_relaxed D penalty).P
        (dtw_traceback (dtw_relaxed D penalty).D
          (dtw_offset gully D.length (D.headD []).length)).1
        (dtw_traceback (dtw_relaxed D penalty).D
          (dtw_offset gully D.length (D.headD []).length)).2 = 0)) :
    fle (FVal.val 0) (dtw D gully penalty) = true := by
  unfold dtw
  set s := dtw_relaxed D penalty with hs
  set e := dtw_traceback s.D (dtw_offset gully D.length (D.headD []).length) with he
  set a := mget s.D e.1 e.2 with ha
  set b := mget s.P e.1 e.2 with hb
  unfold fdiv
  by_cases hb0 : b = 0
  · have ha0 : a ≠ 0 := fun hcon => h ⟨hcon, hb0⟩
    rw [if_pos hb0, if_neg ha0]
    rfl
  · rw [if_neg hb0]
    show decide ((0 : ℚ) ≤ (a : ℚ) / (b : ℚ)) = true
    rw [decide_eq_true_iff]
    exact div_nonneg (Nat.cast_nonneg a) (Nat.cast_nonneg b)

/-- CLAIM C6 witness. A concrete instantiation of the amended claim: on the
one-by-one matrix holding one, the endpoint cost is one and the path length
is zero, so the hypothesis holds and the score (positive infinity) is
greater than or equal to zero. -/
theorem C6_witness : fle (FVal.val 0) (dtw [[1]] 0 0) = true :=
  C6_dtw_score_nonneg [[1]] 0 0 (by decide) (by decide) (by decide)

/-- CLAIM C2. Guard semantics of the dtw_core relaxation: the state is folded
over the cells in row-major order, and at loop indices (i, j) the diagonal
guard is tried first with its update of cell (i + 1, j + 1) of both buffers,
then the horizontal guard, then the vertical guard, and when none of the
three guards holds the state is left unmodified for that step. -/
theorem C2_dtw_core_guard_semantics (pen : Nat) (s : DtwState) (i j : Nat) :
    (dtw_core pen s = (row_major_cells s.D.length (s.D.headD []).length).foldl
      (fun t c => dtw_cell_step pen t c.1 c.2) s)
  ∧ (mget s.D i j ≤ mget s.D i (j + 1) + pen ∧ mget s.D i j ≤ mget s.D (i + 1) j + pen →
      dtw_cell_step pen s i j =
        ⟨mset s.D (i + 1) (j + 1) (mget s.D (i + 1) (j + 1) + mget s.D i j),
         mset s.P (i + 1) (j + 1) (mget s.P (i + 1) (j + 1) + mget s.P i j + 1)⟩)
  ∧ (¬(mget s.D i j ≤ mget s.D i (j + 1) + pen ∧ mget s.D i j ≤ mget s.D (i + 1) j + pen) →
      (mget s.D i (j + 1) ≤ mget s.D (i + 1) j ∧ mget s.D i (j + 1) + pen ≤ mget s.D i j) →
      dtw_cell_step pen s i j =
        ⟨mset s.D (i + 1) (j + 1) (mget s.D (i + 1) (j + 1) + mget s.D i (j + 1) + pen),
         mset s.P (i + 1) (j + 1) (mget s.P (i + 1) (j + 1) + mget s.P i (j + 1) + 1)⟩)
  ∧ (¬(mget s.D i j ≤ mget s.D i (j + 1) + pen ∧ mget s.D i j ≤ mget s.D (i + 1) j + pen) →
      ¬(mget s.D i (j + 1) ≤ mget s.D (i + 1) j ∧ mget s.D i (j + 1) + pen ≤ mget s.D i j) →
      (mget s.D (i + 1) j ≤ mget s.D i (j + 1) ∧ mget s.D (i + 1) j + pen ≤ mget s.D i j) →
      dtw_cell_step pen s i j =
        ⟨mset s.D (i + 1) (j + 1) (mget s.D (i + 1) (j + 1) + mget s.D (i + 1) j + pen),
         mset s.P (i + 1) (j + 1) (mget s.P (i + 1) (j + 1) + mget s.P (i + 1) j + 1)⟩)
  ∧ (¬(mget s.D i j ≤ mget s.D i (j + 1) + pen ∧ mget s.D i j ≤ mget s.D (i + 1) j + pen) →
      ¬(mget s.D i (j + 1) ≤ mget s.D (i + 1) j ∧ mget s.D i (j + 1) + pen ≤ mget s.D i j) →
      ¬(mget s.D (i + 1) j ≤ mget s.D i (j + 1) ∧ mget s.D (i + 1) j + pen ≤ mget s.D i j) →
      dtw_cell_step pen s i j = s) := by
  refine ⟨rfl, fun h1 => ?_, fun h1 h2 => ?_, fun h1 h2 h3 => ?_, fun h1 h2 h3 => ?_⟩
  · simp only [dtw_cell_step]
    rw [if_pos h1]
  · simp only [dtw_cell_step]
    rw [if_neg h1, if_pos h2]
  · simp only [dtw_cell_step]
    rw [if_neg h1, if_neg h2, if_pos h3]
  · simp only [dtw_cell_step]
    rw [if_neg h1, if_neg h2, if_neg h3]

/-- CLAIM C2 witness. A concrete diagonal step: on the two-by-two all-zero
state at loop indices (0, 0) with penalty 0, the diagonal guard holds and the
update writes path length one into cell (1, 1). -/
theorem C2_witness :
    dtw_cell_step 0 ⟨[[0, 0], [0, 0]], [[0, 0], [0, 0]]⟩ 0 0
      = ⟨[[0, 0], [0, 0]], [[0, 0], [0, 1]]⟩ :=
  ((C2_dtw_core_guard_semantics 0 ⟨[[0, 0], [0, 0]], [[0, 0], [0, 0]]⟩ 0 0).2.1
    (by decide)).trans (by decide)

/-- CLAIM C9 counterexample. A call whose lengths list is not ascending is
processed without any error: it returns a normal result that even contains
candidate index 1, whose recorded length 9 lies outside the tolerance
interval from 4 to 6, instead of failing fast. -/
theorem C9_no_validation_counterexample :
    ¬ List.Sorted (· ≤ ·) ([0, 9, 5, 6] : List ℚ)
  ∧ match_one_sequence [1, 2] 5 [[9, 9], [1, 3], [1, 2], [1, 0]] [0, 9, 5, 6] (1 / 5) 1 0 0
      = ([2, 1], [FVal.val 0, FVal.val 1])
  ∧ (1 : Nat) ∈
      (match_one_sequence [1, 2] 5 [[9, 9], [1, 3], [1, 2], [1, 0]] [0, 9, 5, 6] (1 / 5) 1 0 0).1
  ∧ ¬((1 - 1 / 5) * 5 ≤ ([0, 9, 5, 6] : List ℚ).getD 1 0
      ∧ ([0, 9, 5, 6] : List ℚ).getD 1 0 ≤ (1 + 1 / 5) * 5) := by
  exact ⟨by decide, by decide, by decide, by decide⟩

/-- CLAIM C9 (amended). The matcher performs no input validation: a call with
an out-of-range length tolerance (negative, outside the unit interval) is
also processed silently through the normal binary-search and loop path and
returns an ordinary empty result instead of an error. -/
theorem C9_silent_processing :
    match_one_sequence [1, 2] 5 [[9, 9], [1, 3], [1, 2], [1, 0]] [0, 9, 5, 6] (-1) 1 0 0 = ([], [])
  ∧ ¬((0 : ℚ) ≤ -1 ∧ (-1 : ℚ) ≤ 1) := by
  exact ⟨by decide, by decide⟩

/-- CLAIM C4 counterexample. With x = [0, 5] and radius 2, the upper envelope
of the source at position 0 is 0: it differs from the maximum 5 over the
claimed window of indices i - r through i + r, and the output is not the
global-maximum broadcast although the radius equals the sequence length. -/
theorem C4_envelope_window_counterexample :
    (maximum_filter1d [0, 5] 2).getD 0 0 ≠ claimed_window_max [0, 5] 2 0
  ∧ maximum_filter1d [0, 5] 2 ≠ [5, 5] := by
  exact ⟨by decide, by decide⟩

/-- CLAIM C4 (amended). For every sequence and radius at least one, the
envelope computation returns an upper and a lower sequence of the length of
the input, and at every position the upper entry is the maximum and the lower
entry the minimum of the input over the scipy window of full width r (the
radius argument is passed to the filters as the window size), with reflected
boundary handling. -/
theorem C4_envelope_reflected_window (x : List Nat) (r : Nat) (hr : 1 ≤ r) :
    (keogh_envelopes x r).1.length = x.length
  ∧ (keogh_envelopes x r).2.length = x.length
  ∧ ∀ i < x.length,
      ((keogh_envelopes x r).1.getD i 0 ∈ filter_window x r i
        ∧ ∀ v ∈ filter_window x r i, v ≤ (keogh_envelopes x r).1.getD i 0)
      ∧ ((keogh_envelopes x r).2.getD i 0 ∈ filter_window x r i
        ∧ ∀ v ∈ filter_window x r i, (keogh_envelopes x r).2.getD i 0 ≤ v) := by
  refine ⟨by simp [keogh_envelopes, maximum_filter1d],
          by simp [keogh_envelopes, minimum_filter1d], fun i hi => ?_⟩
  have hwne : filter_window x r i ≠ [] := filter_window_ne_nil x r i hr
  have hmax : (keogh_envelopes x r).1.getD i 0
      = (filter_window x r i).foldl max ((filter_window x r i).headD 0) := by
    show (maximum_filter1d x r).getD i 0 = _
    unfold maximum_filter1d
    exact getD_range_map x.length _ i hi
  have hmin : (keogh_envelopes x r).2.getD i 0
      = (filter_window x r i).foldl min ((filter_window x r i).headD 0) := by
    show (minimum_filter1d x r).getD i 0 = _
    unfold minimum_filter1d
    exact getD_range_map x.length _ i hi
  refine ⟨⟨?_, ?_⟩, ?_, ?_⟩
  · rw [hmax]
    rcases foldl_max_mem (filter_window x r i) ((filter_window x r i).headD 0) with heq | hmem
    · rw [heq]; exact headD_mem _ hwne
    · exact hmem
  · intro v hv
    rw [hmax]
    exact foldl_max_le_of_mem _ _ v hv
  · rw [hmin]
    rcases foldl_min_mem (filter_window x r i) ((filter_window x r i).headD 0) with heq | hmem
    · rw [heq]; exact headD_mem _ hwne
    · exact hmem
  · intro v hv
    rw [hmin]
    exact foldl_min_le_of_mem _ _ v hv

/-- CLAIM C4 witness. The amended claim instantiated at x = [0, 5] with
radius 2. -/
theorem C4_witness :
    (keogh_envelopes [0, 5] 2).1.length = ([0, 5] : List Nat).length
  ∧ (keogh_envelopes [0, 5] 2).2.length = ([0, 5] : List Nat).length
  ∧ ∀ i < ([0, 5] : List Nat).length,
      ((keogh_envelopes [0, 5] 2).1.getD i 0 ∈ filter_window [0, 5] 2 i
        ∧ ∀ v ∈ filter_window [0, 5] 2 i, v ≤ (keogh_envelopes [0, 5] 2).1.getD i 0)
      ∧ ((keogh_envelopes [0, 5] 2).2.getD i 0 ∈ filter_window [0, 5] 2 i
        ∧ ∀ v ∈ filter_window [0, 5] 2 i, (keogh_envelopes [0, 5] 2).2.getD i 0 ≤ v) :=
  C4_envelope_reflected_window [0, 5] 2 (by decide)

theorem vec_to_int_row_append (l : List Nat) (b : Nat) :
    ∀ i, vec_to_int_row i (l ++ [b]) = vec_to_int_row i l + b * 2 ^ ((i + l.length) * b) := by
  induction l with
  | nil => intro i; simp [vec_to_int_row]
  | cons h t ih =>
    intro i
    rw [List.cons_append]
    show h * 2 ^ (i * h) + vec_to_int_row (i + 1) (t ++ [b])
        = vec_to_int_row i (h :: t) + b * 2 ^ ((i + (h :: t).length) * b)
    rw [ih (i + 1)]
    show _ = h * 2 ^ (i * h) + vec_to_int_row (i + 1) t + b * 2 ^ ((i + (h :: t).length) * b)
    rw [List.length_cons]
    have hexp : i + 1 + t.length = i + (t.length + 1) := by omega
    rw [hexp]
    ring

theorem vec_to_int_row_bits (n : Nat) :
    ∀ k, vec_to_int_row 0 ((List.range k).map fun i => (n >>> i) &&& 1) = n % 2 ^ k := by
  intro k
  induction k with
  | zero => simp [vec_to_int_row, Nat.mod_one]
  | succ k ih =>
    rw [List.range_succ, List.map_append, List.map_cons, List.map_nil,
      vec_to_int_row_append, ih, List.length_map, List.length_range]
    have hb : (n >>> k) &&& 1 = n / 2 ^ k % 2 := by
      rw [Nat.shiftRight_eq_div_pow, Nat.and_one_is_mod]
    have hm : n % 2 ^ (k + 1) = n % 2 ^ k + 2 ^ k * (n / 2 ^ k % 2) := by
      rw [pow_succ]; exact Nat.mod_mul
    rw [hm, hb]
    have h2 : n / 2 ^ k % 2 = 0 ∨ n / 2 ^ k % 2 = 1 := by omega
    rcases h2 with h | h <;> rw [h] <;> ring

/-- CLAIM C8. Round trip of the bit-vector conversions: for every sequence of
integers representable in N_BITS bits, converting to bit vectors and back is
the identity. -/
theorem C8_round_trip (S : List Nat) (h : ∀ n ∈ S, n < 2 ^ N_BITS) :
    vectors_to_ints (ints_to_vectors S) = S := by
  induction S with
  | nil => rfl
  | cons a t ih =>
    have ha : a < 2 ^ N_BITS := h a (List.mem_cons_self a t)
    have ht := ih fun n hn => h n (List.mem_cons_of_mem a hn)
    show vec_to_int_row 0 ((List.range N_BITS).map fun i => (a >>> i) &&& 1)
        :: vectors_to_ints (ints_to_vectors t) = a :: t
    rw [ht, vec_to_int_row_bits a N_BITS, Nat.mod_eq_of_lt ha]

/-- CLAIM C8 witness. The round trip evaluated on the concrete sequence
[5, 9, 65535] of 16-bit values. -/
theorem C8_witness :
    (∀ n ∈ ([5, 9, 65535] : List Nat), n < 2 ^ N_BITS)
  ∧ vectors_to_ints (ints_to_vectors [5, 9, 65535]) = [5, 9, 65535] :=
  ⟨by decide, C8_round_trip [5, 9, 65535] (by decide)⟩

theorem argmin_fold_spec (l : List Nat) :
    ∀ (L : List Nat) (b : Nat),
      (L.foldl (fun b k => if l.getD k 0 < l.getD b 0 then k else b) b = b
        ∨ L.foldl (fun b k => if l.getD k 0 < l.getD b 0 then k else b) b ∈ L)
      ∧ l.getD (L.foldl (fun b k => if l.getD k 0 < l.getD b 0 then k else b) b) 0 ≤ l.getD b 0
      ∧ ∀ k ∈ L, l.getD (L.foldl (fun b k => if l.getD k 0 < l.getD b 0 then k else b) b) 0
          ≤ l.getD k 0 := by
  intro L
  induction L with
  | nil =>
    intro b
    exact ⟨Or.inl rfl, le_refl _, fun k hk => absurd hk (List.not_mem_nil k)⟩
  | cons h t ih =>
    intro b
    rw [List.foldl_cons]
    by_cases hc : l.getD h 0 < l.getD b 0
    · rw [if_pos hc]
      obtain ⟨hmem, hle, hall⟩ := ih h
      refine ⟨?_, le_trans hle (le_of_lt hc), ?_⟩
      · rcases hmem with he | hm
        · exact Or.inr (by rw [he]; exact List.mem_cons_self h t)
        · exact Or.inr (List.mem_cons_of_mem h hm)
      · intro k hk
        rcases List.mem_cons.mp hk with rfl | hk
        · exact hle
        · exact hall k hk
    · rw [if_neg hc]
      obtain ⟨hmem, hle, hall⟩ := ih b
      refine ⟨?_, hle, ?_⟩
      · rcases hmem with he | hm
        · exact Or.inl he
        · exact Or.inr (List.mem_cons_of_mem h hm)
      · intro k hk
        rcases List.mem_cons.mp hk with rfl | hk
        · exact le_trans hle (le_of_not_lt hc)
        · exact hall k hk

/-- Position returned by argmin is a valid index (for a nonempty list). -/
theorem argmin_lt_length (l : List Nat) (hl : l ≠ []) : argmin l < l.length := by
  obtain ⟨hmem, _, _⟩ := argmin_fold_spec l (List.range l.length) 0
  unfold argmin
  rcases hmem with he | hm
  · rw [he]
    exact List.length_pos.mpr hl
  · exact List.mem_range.mp hm

/-- Value at the argmin position is minimal among all entries. -/
theorem argmin_le_getD (l : List Nat) (k : Nat) (hk : k < l.length) :
    l.getD (argmin l) 0 ≤ l.getD k 0 := by
  obtain ⟨_, _, hall⟩ := argmin_fold_spec l (List.range l.length) 0
  exact hall k (List.mem_range.mpr hk)

theorem getD_range'_map (g n : Nat) (f : Nat → Nat) (t : Nat) (h : t < n) :
    ((List.range' g n).map f).getD t 0 = f (g + t) := by
  rw [List.getD_eq_getElem _ _ (by simpa using h)]
  simp

/-- Gully offset stays below both dimensions when the gully proportion is in
the unit interval and the matrix is nonempty. -/
theorem dtw_offset_lt (gully : ℚ) (rows cols : Nat) (hg0 : 0 ≤ gully) (hg1 : gully < 1)
    (hrows : 0 < rows) (hcols : 0 < cols) : dtw_offset gully rows cols < min rows cols := by
  unfold dtw_offset
  have hminpos : 0 < min rows cols := by omega
  have hmq : (0 : ℚ) < ((min rows cols : Nat) : ℚ) := by exact_mod_cast hminpos
  have hq : gully * ((min rows cols : Nat) : ℚ) < ((min rows cols : Nat) : ℚ) := by
    calc gully * ((min rows cols : Nat) : ℚ)
        < 1 * ((min rows cols : Nat) : ℚ) := by
          exact mul_lt_mul_of_pos_right hg1 hmq
      _ = ((min rows cols : Nat) : ℚ) := one_mul _
  have hfl : ⌊gully * ((min rows cols : Nat) : ℚ)⌋ < ((min rows cols : Nat) : ℤ) := by
    rw [Int.floor_lt]
    exact_mod_cast hq
  omega

/-- CLAIM C3 counterexample. On the already-relaxed matrix [[9, 1], [5, 7]]
with offset 0, the last-column candidate is row 0 (cost 1) and the last-row
candidate is column 0 (cost 5); the last-row cost exceeds the last-column
cost, the last-column endpoint is selected, and the selected row index is 0:
the row index is NOT forced to the final row as the claim states. -/
theorem C3_traceback_forcing_counterexample :
    argmin [1, 7] = 0 ∧ argmin [5, 7] = 0
  ∧ mget [[9, 1], [5, 7]] (2 - 1) 0 > mget [[9, 1], [5, 7]] 0 (2 - 1)
  ∧ dtw_traceback [[9, 1], [5, 7]] 0 = (0, 1)
  ∧ (dtw_traceback [[9, 1], [5, 7]] 0).1 ≠ 2 - 1 := by
  exact ⟨by decide, by decide, by decide, by decide, by decide⟩

/-- CLAIM C3 (amended). Endpoint selection of dtw on the relaxed matrix M:
with offset g equal to the floor of gully times the smaller dimension, the
last-column candidate row is a first minimum-cost position of the last column
at or beyond g, the last-row candidate column is a first minimum-cost
position of the last row at or beyond g; when the last-row candidate cost
exceeds the last-column candidate cost the last-column endpoint (candidate
row, final column) is selected, so the COLUMN index is forced to the final
column, and otherwise the last-row endpoint (final row, candidate column) is
selected, so the ROW index is forced to the final row; the returned dtw score
is the cost at the selected endpoint divided, as a float, by the path length
at the selected endpoint. -/
theorem C3_endpoint_selection (M : List (List Nat)) (gully : ℚ)
    (hg0 : 0 ≤ gully) (hg1 : gully < 1)
    (hrows : 0 < M.length) (hcols : 0 < (M.headD []).length) :
    dtw_offset gully M.length (M.headD []).length ≤
        argmin ((List.range' (dtw_offset gully M.length (M.headD []).length)
          (M.length - dtw_offset gully M.length (M.headD []).length)).map
            (fun k => mget M k ((M.headD []).length - 1)))
          + dtw_offset gully M.length (M.headD []).length
  ∧ argmin ((List.range' (dtw_offset gully M.length (M.headD []).length)
        (M.length - dtw_offset gully M.length (M.headD []).length)).map
          (fun k => mget M k ((M.headD []).length - 1)))
        + dtw_offset gully M.length (M.headD []).length < M.length
  ∧ (∀ k, dtw_offset gully M.length (M.headD []).length ≤ k → k < M.length →
      mget M (argmin ((List.range' (dtw_offset gully M.length (M.headD []).length)
          (M.length - dtw_offset gully M.length (M.headD []).length)).map
            (fun k => mget M k ((M.headD []).length - 1)))
          + dtw_offset gully M.length (M.headD []).length) ((M.headD []).length - 1)
        ≤ mget M k ((M.headD []).length - 1))
  ∧ argmin ((List.range' (dtw_offset gully M.length (M.headD []).length)
        ((M.headD []).length - dtw_offset gully M.length (M.headD []).length)).map
          (fun k => mget M (M.length - 1) k))
        + dtw_offset gully M.length (M.headD []).length < (M.headD []).length
  ∧ (∀ k, dtw_offset gully M.length (M.headD []).length ≤ k → k < (M.headD []).length →
      mget M (M.length - 1)
          (argmin ((List.range' (dtw_offset gully M.length (M.headD []).length)
            ((M.headD []).length - dtw_offset gully M.length (M.headD []).length)).map
              (fun k => mget M (M.length - 1) k))
            + dtw_offset gully M.length (M.headD []).length)
        ≤ mget M (M.length - 1) k)
  ∧ (mget M (M.length - 1)
        (argmin ((List.range' (dtw_offset gully M.length (M.headD []).length)
          ((M.headD []).length - dtw_offset gully M.length (M.headD []).length)).map
            (fun k => mget M (M.length - 1) k))
          + dtw_offset gully M.length (M.headD []).length)
      > mget M (argmin ((List.range' (dtw_offset gully M.length (M.headD []).length)
          (M.length - dtw_offset gully M.length (M.headD []).length)).map
            (fun k => mget M k ((M.headD []).length - 1)))
          + dtw_offset gully M.length (M.headD []).length) ((M.headD []).length - 1) →
      dtw_traceback M (dtw_offset gully M.length (M.headD []).length)
        = (argmin ((List.range' (dtw_offset gully M.length (M.headD []).length)
            (M.length - dtw_offset gully M.length (M.headD []).length)).map
              (fun k => mget M k ((M.headD []).length - 1)))
            + dtw_offset gully M.length (M.headD []).length, (M.headD []).length - 1))
  ∧ (¬(mget M (M.length - 1)
        (argmin ((List.range' (dtw_offset gully M.length (M.headD []).length)
          ((M.headD []).length - dtw_offset gully M.length (M.headD []).length)).map
            (fun k => mget M (M.length - 1) k))
          + dtw_offset gully M.length (M.headD []).length)
      > mget M (argmin ((List.range' (dtw_offset gully M.length (M.headD []).length)
          (M.length - dtw_offset gully M.length (M.headD []).length)).map
            (fun k => mget M k ((M.headD []).length - 1)))
          + dtw_offset gully M.length (M.headD []).length) ((M.headD []).length - 1)) →
      dtw_traceback M (dtw_offset gully M.length (M.headD []).length)
        = (M.length - 1,
            argmin ((List.range' (dtw_offset gully M.length (M.headD []).length)
              ((M.headD []).length - dtw_offset gully M.length (M.headD []).length)).map
                (fun k => mget M (M.length - 1) k))
              + dtw_offset gully M.length (M.headD []).length))
  ∧ (∀ (Din : List (List Nat)) (penalty : Nat),
      dtw Din gully penalty = fdiv
        (mget (dtw_relaxed Din penalty).D
          (dtw_traceback (dtw_relaxed Din penalty).D
            (dtw_offset gully Din.length ((Din.headD []).length))).1
          (dtw_traceback (dtw_relaxed Din penalty).D
            (dtw_offset gully Din.length ((Din.headD []).length))).2)
        (mget (dtw_relaxed Din penalty).P
          (dtw_traceback (dtw_relaxed Din penalty).D
            (dtw_offset gully Din.length ((Din.headD []).length))).1
          (dtw_traceback (dtw_relaxed Din penalty).D
            (dtw_offset gully Din.length ((Din.headD []).length))).2)) := by
  have hglt := dtw_offset_lt gully M.length (M.headD []).length hg0 hg1 hrows hcols
  set g := dtw_offset gully M.length (M.headD []).length with hgdef
  set rows := M.length with hrowsdef
  set cols := (M.headD []).length with hcolsdef
  have hgr : g < rows := lt_of_lt_of_le hglt (min_le_left rows cols)
  have hgc : g < cols := lt_of_lt_of_le hglt (min_le_right rows cols)
  set Lcol := (List.range' g (rows - g)).map (fun k => mget M k (cols - 1)) with hLcol
  set Lrow := (List.range' g (cols - g)).map (fun k => mget M (rows - 1) k) with hLrow
  have hLcolLen : Lcol.length = rows - g := by rw [hLcol, List.length_map, List.length_range']
  have hLrowLen : Lrow.length = cols - g := by rw [hLrow, List.length_map, List.length_range']
  have hLcolNe : Lcol ≠ [] := by
    intro hcon
    rw [hcon] at hLcolLen
    simp at hLcolLen
    omega
  have hLrowNe : Lrow ≠ [] := by
    intro hcon
    rw [hcon] at hLrowLen
    simp at hLrowLen
    omega
  have hica : argmin Lcol < rows - g := by
    have := argmin_lt_length Lcol hLcolNe
    omega
  have hjca : argmin Lrow < cols - g := by
    have := argmin_lt_length Lrow hLrowNe
    omega
  have hcolval : Lcol.getD (argmin Lcol) 0 = mget M (g + argmin Lcol) (cols - 1) :=
    getD_range'_map g (rows - g) _ (argmin Lcol) hica
  have hrowval : Lrow.getD (argmin Lrow) 0 = mget M (rows - 1) (g + argmin Lrow) :=
    getD_range'_map g (cols - g) _ (argmin Lrow) hjca
  have hcolmin : ∀ k, g ≤ k → k < rows → mget M (argmin Lcol + g) (cols - 1)
      ≤ mget M k (cols - 1) := by
    intro k hk1 hk2
    have ht : k - g < rows - g := by omega
    have := argmin_le_getD Lcol (k - g) (by omega)
    rw [hcolval, getD_range'_map g (rows - g) _ (k - g) ht] at this
    have hgk : g + (k - g) = k := by omega
    rw [hgk] at this
    have hcomm : g + argmin Lcol = argmin Lcol + g := by omega
    rw [hcomm] at this
    exact this
  have hrowmin : ∀ k, g ≤ k → k < cols → mget M (rows - 1) (argmin Lrow + g)
      ≤ mget M (rows - 1) k := by
    intro k hk1 hk2
    have ht : k - g < cols - g := by omega
    have := argmin_le_getD Lrow (k - g) (by omega)
    rw [hrowval, getD_range'_map g (cols - g) _ (k - g) ht] at this
    have hgk : g + (k - g) = k := by omega
    rw [hgk] at this
    have hcomm : g + argmin Lrow = argmin Lrow + g := by omega
    rw [hcomm] at this
    exact this
  refine ⟨by omega, by omega, hcolmin, by omega, hrowmin, fun h => ?_, fun h => ?_,
    fun Din penalty => rfl⟩
  · show (if mget M (rows - 1) (argmin Lrow + g) > mget M (argmin Lcol + g) (cols - 1)
      then (argmin Lcol + g, cols - 1) else (rows - 1, argmin Lrow + g)) = _
    rw [if_pos h]
  · show (if mget M (rows - 1) (argmin Lrow + g) > mget M (argmin Lcol + g) (cols - 1)
      then (argmin Lcol + g, cols - 1) else (rows - 1, argmin Lrow + g)) = _
    rw [if_neg h]

/-- CLAIM C3 witness. The amended endpoint-selection claim instantiated on
the concrete relaxed matrix [[9, 1], [5, 7]] with gully 0. -/
theorem C3_witness :
    dtw_offset 0 ([[9, 1], [5, 7]] : List (List Nat)).length
        (([[9, 1], [5, 7]] : List (List Nat)).headD []).length ≤
      argmin ((List.range' (dtw_offset 0 2 2) (2 - dtw_offset 0 2 2)).map
        (fun k => mget [[9, 1], [5, 7]] k (2 - 1))) + dtw_offset 0 2 2
  ∧ argmin ((List.range' (dtw_offset 0 2 2) (2 - dtw_offset 0 2 2)).map
        (fun k => mget [[9, 1], [5, 7]] k (2 - 1))) + dtw_offset 0 2 2 < 2
  ∧ (∀ k, dtw_offset 0 2 2 ≤ k → k < 2 →
      mget [[9, 1], [5, 7]] (argmin ((List.range' (dtw_offset 0 2 2) (2 - dtw_offset 0 2 2)).map
        (fun k => mget [[9, 1], [5, 7]] k (2 - 1))) + dtw_offset 0 2 2) (2 - 1)
        ≤ mget [[9, 1], [5, 7]] k (2 - 1))
  ∧ argmin ((List.range' (dtw_offset 0 2 2) (2 - dtw_offset 0 2 2)).map
        (fun k => mget [[9, 1], [5, 7]] (2 - 1) k)) + dtw_offset 0 2 2 < 2
  ∧ (∀ k, dtw_offset 0 2 2 ≤ k → k < 2 →
      mget [[9, 1], [5, 7]] (2 - 1)
          (argmin ((List.range' (dtw_offset 0 2 2) (2 - dtw_offset 0 2 2)).map
            (fun k => mget [[9, 1], [5, 7]] (2 - 1) k)) + dtw_offset 0 2 2)
        ≤ mget [[9, 1], [5, 7]] (2 - 1) k)
  ∧ (mget [[9, 1], [5, 7]] (2 - 1)
        (argmin ((List.range' (dtw_offset 0 2 2) (2 - dtw_offset 0 2 2)).map
          (fun k => mget [[9, 1], [5, 7]] (2 - 1) k)) + dtw_offset 0 2 2)
      > mget [[9, 1], [5, 7]] (argmin ((List.range' (dtw_offset 0 2 2)
          (2 - dtw_offset 0 2 2)).map
            (fun k => mget [[9, 1], [5, 7]] k (2 - 1))) + dtw_offset 0 2 2) (2 - 1) →
      dtw_traceback [[9, 1], [5, 7]] (dtw_offset 0 2 2)
        = (argmin ((List.range' (dtw_offset 0 2 2) (2 - dtw_offset 0 2 2)).map
            (fun k => mget [[9, 1], [5, 7]] k (2 - 1))) + dtw_offset 0 2 2, 2 - 1))
  ∧ (¬(mget [[9, 1], [5, 7]] (2 - 1)
        (argmin ((List.range' (dtw_offset 0 2 2) (2 - dtw_offset 0 2 2)).map
          (fun k => mget [[9, 1], [5, 7]] (2 - 1) k)) + dtw_offset 0 2 2)
      > mget [[9, 1], [5, 7]] (argmin ((List.range' (dtw_offset 0 2 2)
          (2 - dtw_offset 0 2 2)).map
            (fun k => mget [[9, 1], [5, 7]] k (2 - 1))) + dtw_offset 0 2 2) (2 - 1)) →
      dtw_traceback [[9, 1], [5, 7]] (dtw_offset 0 2 2)
        = (2 - 1, argmin ((List.range' (dtw_offset 0 2 2) (2 - dtw_offset 0 2 2)).map
            (fun k => mget [[9, 1], [5, 7]] (2 - 1) k)) + dtw_offset 0 2 2))
  ∧ (∀ (Din : List (List Nat)) (penalty : Nat),
      dtw Din 0 penalty = fdiv
        (mget (dtw_relaxed Din penalty).D
          (dtw_traceback (dtw_relaxed Din penalty).D
            (dtw_offset 0 Din.length ((Din.headD []).length))).1
          (dtw_traceback (dtw_relaxed Din penalty).D
            (dtw_offset 0 Din.length ((Din.headD []).length))).2)
        (mget (dtw_relaxed Din penalty).P
          (dtw_traceback (dtw_relaxed Din penalty).D
            (dtw_offset 0 Din.length ((Din.headD []).length))).1
          (dtw_traceback (dtw_relaxed Din penalty).D
            (dtw_offset 0 Din.length ((Din.headD []).length))).2)) :=
  C3_endpoint_selection [[9, 1], [5, 7]] 0 (by decide) (by decide) (by decide) (by decide)

/-- Invariant-based correctness of the bisection loop: with a predicate that
is downward closed on the list, the loop returns the boundary position. -/
theorem searchsorted_go_spec (pred : ℚ → Bool) (a : List ℚ)
    (hdc : ∀ p q : Nat, p ≤ q → q < a.length →
      pred (a.getD q 0) = true → pred (a.getD p 0) = true) :
    ∀ (f lo hi : Nat), hi - lo ≤ f → lo ≤ hi → hi ≤ a.length →
      (∀ k < lo, pred (a.getD k 0) = true) →
      (∀ k, hi ≤ k → k < a.length → pred (a.getD k 0) = false) →
      lo ≤ searchsorted_go pred a f lo hi
      ∧ searchsorted_go pred a f lo hi ≤ hi
      ∧ (∀ k < searchsorted_go pred a f lo hi, pred (a.getD k 0) = true)
      ∧ (∀ k, searchsorted_go pred a f lo hi ≤ k → k < a.length →
          pred (a.getD k 0) = false) := by
  intro f
  induction f with
  | zero =>
    intro lo hi hf hlohi hhi hbelow habove
    simp only [searchsorted_go]
    exact ⟨le_refl _, hlohi, hbelow, fun k hk1 hk2 => habove k (by omega) hk2⟩
  | succ f ih =>
    intro lo hi hf hlohi hhi hbelow habove
    by_cases hlt : lo < hi
    · have hmidlt : (lo + hi) / 2 < hi := by omega
      have hmidge : lo ≤ (lo + hi) / 2 := by omega
      by_cases hp : pred (a.getD ((lo + hi) / 2) 0) = true
      · have hgo : searchsorted_go pred a (f + 1) lo hi
            = searchsorted_go pred a f ((lo + hi) / 2 + 1) hi := by
          simp only [searchsorted_go]
          rw [if_pos hlt, if_pos hp]
        rw [hgo]
        refine (ih ((lo + hi) / 2 + 1) hi (by omega) (by omega) hhi ?_ habove).imp
          (fun h1 => by omega) id
        intro k hk
        exact hdc k ((lo + hi) / 2) (by omega) (by omega) hp
      · have hp2 : pred (a.getD ((lo + hi) / 2) 0) = false := by
          cases hval : pred (a.getD ((lo + hi) / 2) 0)
          · rfl
          · exact absurd hval hp
        have hgo : searchsorted_go pred a (f + 1) lo hi
            = searchsorted_go pred a f lo ((lo + hi) / 2) := by
          simp only [searchsorted_go]
          rw [if_pos hlt, if_neg hp]
        rw [hgo]
        refine (ih lo ((lo + hi) / 2) (by omega) (by omega) (by omega) hbelow ?_).imp
          id (fun h2 => ⟨by omega, h2.2⟩)
        intro k hk1 hk2
        cases hval : pred (a.getD k 0)
        · rfl
        · exact absurd (hdc ((lo + hi) / 2) k hk1 hk2 hval) hp
    · have hgo : searchsorted_go pred a (f + 1) lo hi = lo := by
        simp only [searchsorted_go]
        rw [if_neg hlt]
      rw [hgo]
      exact ⟨le_refl _, hlohi, hbelow, fun k hk1 hk2 => habove k (by omega) hk2⟩

/-- Monotone access into a sorted list of rationals. -/
theorem sorted_getD_mono (a : List ℚ) (hs : List.Sorted (· ≤ ·) a) (p q : Nat)
    (hpq : p ≤ q) (hq : q < a.length) : a.getD p 0 ≤ a.getD q 0 := by
  rcases Nat.eq_or_lt_of_le hpq with rfl | hlt
  · exact le_refl _
  · rw [List.getD_eq_getElem a 0 (lt_of_le_of_lt hpq hq), List.getD_eq_getElem a 0 hq]
    have := List.pairwise_iff_get.mp hs ⟨p, lt_of_le_of_lt hpq hq⟩ ⟨q, hq⟩ hlt
    simpa using this

/-- Correctness of searchsorted with side left on a sorted list: the result is
the first position holding a value greater than or equal to v. -/
theorem searchsorted_left_spec (a : List ℚ) (v : ℚ) (hs : List.Sorted (· ≤ ·) a) :
    searchsorted_left a v ≤ a.length
  ∧ (∀ k < searchsorted_left a v, a.getD k 0 < v)
  ∧ (∀ k, searchsorted_left a v ≤ k → k < a.length → v ≤ a.getD k 0) := by
  have hdc : ∀ p q : Nat, p ≤ q → q < a.length →
      (fun x => decide (x < v)) (a.getD q 0) = true →
      (fun x => decide (x < v)) (a.getD p 0) = true := by
    intro p q hpq hq hprd
    rw [decide_eq_true_iff] at hprd ⊢
    exact lt_of_le_of_lt (sorted_getD_mono a hs p q hpq hq) hprd
  obtain ⟨h1, h2, h3, h4⟩ := searchsorted_go_spec (fun x => decide (x < v)) a hdc
    a.length 0 a.length (by omega) (by omega) (le_refl _) (by omega)
    (fun k hk1 hk2 => by omega)
  refine ⟨h2, fun k hk => ?_, fun k hk1 hk2 => ?_⟩
  · have := h3 k hk
    rwa [decide_eq_true_iff] at this
  · have := h4 k hk1 hk2
    rw [decide_eq_false_iff_not] at this
    exact le_of_not_lt this

/-- Correctness of searchsorted with side right on a sorted list: the result
is the first position holding a value strictly greater than v. -/
theorem searchsorted_right_spec (a : List ℚ) (v : ℚ) (hs : List.Sorted (· ≤ ·) a) :
    searchsorted_right a v ≤ a.length
  ∧ (∀ k < searchsorted_right a v, a.getD k 0 ≤ v)
  ∧ (∀ k, searchsorted_right a v ≤ k → k < a.length → v < a.getD k 0) := by
  have hdc : ∀ p q : Nat, p ≤ q → q < a.length →
      (fun x => decide (x ≤ v)) (a.getD q 0) = true →
      (fun x => decide (x ≤ v)) (a.getD p 0) = true := by
    intro p q hpq hq hprd
    rw [decide_eq_true_iff] at hprd ⊢
    exact le_trans (sorted_getD_mono a hs p q hpq hq) hprd
  obtain ⟨h1, h2, h3, h4⟩ := searchsorted_go_spec (fun x => decide (x ≤ v)) a hdc
    a.length 0 a.length (by omega) (by omega) (le_refl _) (by omega)
    (fun k hk1 hk2 => by omega)
  refine ⟨h2, fun k hk => ?_, fun k hk1 hk2 => ?_⟩
  · have := h3 k hk
    rwa [decide_eq_true_iff] at this
  · have := h4 k hk1 hk2
    rw [decide_eq_false_iff_not] at this
    exact lt_of_not_le this

/-- Every index collected by the candidate loop comes from the initial state
or from the iterated index list. -/
theorem match_fold_mem (query : List Nat) (sequences : List (List Nat)) (gully : ℚ)
    (penalty : Nat) (u l : List Nat) :
    ∀ (L : List Nat) (st : MatchState) (n : Nat),
      n ∈ (L.foldl (match_step query sequences gully penalty u l) st).match_list →
      n ∈ st.match_list ∨ n ∈ L := by
  intro L
  induction L with
  | nil =>
    intro st n hn
    exact Or.inl hn
  | cons h t ih =>
    intro st n hn
    rw [List.foldl_cons] at hn
    rcases ih _ n hn with hin | hin
    · unfold match_step at hin
      by_cases hc : flt (lb_keogh u l (sequences.getD h [])) st.best = true
      · rw [if_pos hc] at hin
        rcases List.mem_append.mp hin with hin | hin
        · exact Or.inl hin
        · have heq : n = h := List.mem_singleton.mp hin
          rw [heq]
          exact Or.inr (List.mem_cons_self h t)
      · rw [if_neg hc] at hin
        exact Or.inl hin
    · exact Or.inr (List.mem_cons_of_mem h hin)

/-- The candidate loop keeps the match and score lists the same length. -/
theorem match_fold_len_eq (query : List Nat) (sequences : List (List Nat)) (gully : ℚ)
    (penalty : Nat) (u l : List Nat) :
    ∀ (L : List Nat) (st : MatchState),
      st.match_list.length = st.score_list.length →
      (L.foldl (match_step query sequences gully penalty u l) st).match_list.length
        = (L.foldl (match_step query sequences gully penalty u l) st).score_list.length := by
  intro L
  induction L with
  | nil =>
    intro st h
    exact h
  | cons h t ih =>
    intro st hst
    rw [List.foldl_cons]
    apply ih
    unfold match_step
    by_cases hc : flt (lb_keogh u l (sequences.getD h [])) st.best = true
    · rw [if_pos hc]
      simp [hst]
    · rw [if_neg hc]
      exact hst

/-- Iterating over indices all different from v never changes the number of
occurrences of v among the collected matches. -/
theorem match_fold_count_ne (query : List Nat) (sequences : List (List Nat)) (gully : ℚ)
    (penalty : Nat) (u l : List Nat) :
    ∀ (L : List Nat) (st : MatchState) (v : Nat), (∀ n ∈ L, n ≠ v) →
      (L.foldl (match_step query sequences gully penalty u l) st).match_list.count v
        = st.match_list.count v := by
  intro L
  induction L with
  | nil =>
    intro st v hv
    rfl
  | cons h t ih =>
    intro st v hv
    rw [List.foldl_cons,
      ih _ v (fun n hn => hv n (List.mem_cons_of_mem h hn))]
    unfold match_step
    by_cases hc : flt (lb_keogh u l (sequences.getD h [])) st.best = true
    · rw [if_pos hc]
      show (st.match_list ++ [h]).count v = st.match_list.count v
      rw [List.count_append]
      have : ([h] : List Nat).count v = 0 := by
        rw [List.count_eq_zero]
        intro hcon
        exact hv h (List.mem_cons_self h t) (List.mem_singleton.mp hcon).symm
      omega
    · rw [if_neg hc]

theorem map_getD_range (l : List Nat) :
    (List.range l.length).map (fun i => l.getD i 0) = l := by
  induction l with
  | nil => rfl
  | cons h t ih =>
    rw [List.length_cons, List.range_succ_eq_map, List.map_cons, List.map_map]
    have : ((fun i => (h :: t).getD i 0) ∘ Nat.succ) = fun i => t.getD i 0 := by
      funext i
      simp [Function.comp, List.getD_cons_succ]
    rw [List.getD_cons_zero, this, ih]

/-- Reordering the match list through argsort of the score list is a
permutation of the match list. -/
theorem argsort_result_perm (st : MatchState)
    (hlen : st.match_list.length = st.score_list.length) :
    ((argsort st.score_list).map (fun i => st.match_list.getD i 0)).Perm st.match_list := by
  have hperm : (argsort st.score_list).Perm (List.range st.score_list.length) :=
    List.perm_insertionSort _ _
  have hmap := hperm.map (fun i => st.match_list.getD i 0)
  have h2 : (List.range st.score_list.length).map (fun i => st.match_list.getD i 0)
      = st.match_list := by
    rw [← hlen]
    exact map_getD_range st.match_list
  rw [h2] at hmap
  exact hmap

/-- CLAIM C5. With an ascending lengths list, the binary searches return the
first position with length at least the lower bound and the first position
with length strictly above the upper bound, and every candidate index in the
returned match list is a valid index whose length lies inside the tolerance
interval. -/
theorem C5_match_filtering (query : List Nat) (query_length : ℚ)
    (sequences : List (List Nat)) (lengths : List ℚ) (length_tolerance : ℚ)
    (radius : Nat) (gully : ℚ) (penalty : Nat)
    (hs : List.Sorted (· ≤ ·) lengths) :
    (∀ k < searchsorted_left lengths ((1 - length_tolerance) * query_length),
        lengths.getD k 0 < (1 - length_tolerance) * query_length)
  ∧ (∀ k, searchsorted_left lengths ((1 - length_tolerance) * query_length) ≤ k →
        k < lengths.length → (1 - length_tolerance) * query_length ≤ lengths.getD k 0)
  ∧ (∀ k < searchsorted_right lengths ((1 + length_tolerance) * query_length),
        lengths.getD k 0 ≤ (1 + length_tolerance) * query_length)
  ∧ (∀ k, searchsorted_right lengths ((1 + length_tolerance) * query_length) ≤ k →
        k < lengths.length → (1 + length_tolerance) * query_length < lengths.getD k 0)
  ∧ ∀ n ∈ (match_one_sequence query query_length sequences lengths length_tolerance
        radius gully penalty).1,
      n < lengths.length
      ∧ (1 - length_tolerance) * query_length ≤ lengths.getD n 0
      ∧ lengths.getD n 0 ≤ (1 + length_tolerance) * query_length := by
  obtain ⟨hl0, hl1, hl2⟩ :=
    searchsorted_left_spec lengths ((1 - length_tolerance) * query_length) hs
  obtain ⟨hr0, hr1, hr2⟩ :=
    searchsorted_right_spec lengths ((1 + length_tolerance) * query_length) hs
  refine ⟨hl1, hl2, hr1, hr2, ?_⟩
  intro n hn
  set start := searchsorted_left lengths ((1 - length_tolerance) * query_length) with hstart
  set stop := searchsorted_right lengths ((1 + length_tolerance) * query_length) with hstop
  simp only [match_one_sequence] at hn
  set st := (List.range' start (stop - start)).foldl
    (match_step query sequences gully penalty (keogh_envelopes query radius).1
      (keogh_envelopes query radius).2) ⟨[], [], FVal.inf⟩ with hst
  have hlen : st.match_list.length = st.score_list.length :=
    match_fold_len_eq query sequences gully penalty _ _ _ ⟨[], [], FVal.inf⟩ rfl
  have hmem : n ∈ st.match_list := by
    have hperm := argsort_result_perm st hlen
    exact hperm.mem_iff.mp hn
  have hrange : n ∈ List.range' start (stop - start) := by
    rcases match_fold_mem query sequences gully penalty _ _ _ ⟨[], [], FVal.inf⟩ n hmem
      with hcon | h
    · cases hcon
    · exact h
  rw [List.mem_range'_1] at hrange
  have hn1 : start ≤ n := hrange.1
  have hn2 : n < stop := by omega
  have hnlen : n < lengths.length := by omega
  exact ⟨hnlen, hl2 n hn1 hnlen, hr1 n hn2⟩

/-- CLAIM C5 witness. The filtering property applied to the concrete scenario
with candidate lengths 80 to 120 and a query of length 100 at tolerance one
tenth, instantiated at the returned candidate index 1: its length 90 lies
inside the tolerance interval from 90 to 110. -/
theorem C5_witness :
    (1 : Nat) < ([80, 90, 100, 110, 120] : List ℚ).length
  ∧ (1 - 1 / 10) * 100 ≤ ([80, 90, 100, 110, 120] : List ℚ).getD 1 0
  ∧ ([80, 90, 100, 110, 120] : List ℚ).getD 1 0 ≤ (1 + 1 / 10) * 100 :=
  (C5_match_filtering [1] 100 [[1], [1], [1], [1], [1]] [80, 90, 100, 110, 120]
    (1 / 10) 1 0 0 (by decide)).2.2.2.2 1 (by decide)

/-- CLAIM C10 counterexample. A call whose tolerance range is nonempty (the
range covers the single empty candidate sequence) but whose first eligible
candidate is the empty sequence: the Keogh bound is the NaN of a zero-by-zero
division rather than a finite value, the strict comparison with the infinite
initial threshold is false, and the first candidate contributes no entry. -/
theorem C10_first_candidate_skipped_counterexample :
    searchsorted_left [0] ((1 - 1) * 1) < searchsorted_right [0] ((1 + 1) * 1)
  ∧ lb_keogh (keogh_envelopes [5] 1).1 (keogh_envelopes [5] 1).2 [] = FVal.nan
  ∧ match_one_sequence [5] 1 [[]] [0] 1 1 0 0 = ([], []) := by
  exact ⟨by decide, by decide, by decide⟩

/-- On nonempty inputs the Keogh bound is a finite value: the trimmed length
is positive, so the normalizing division produces an ordinary rational. -/
theorem lb_keogh_val (u l y : List Nat) (hu : u ≠ []) (hy : y ≠ []) :
    ∃ q, lb_keogh u l y = FVal.val q := by
  have hu0 : 0 < u.length := List.length_pos.mpr hu
  have hy0 : 0 < y.length := List.length_pos.mpr hy
  simp only [lb_keogh, fdiv]
  have hlen : ¬((if u.length < y.length then u else u.take y.length).length = 0) := by
    by_cases hc : u.length < y.length
    · rw [if_pos hc]
      omega
    · rw [if_neg hc, List.length_take]
      omega
  rw [if_neg hlen]
  exact ⟨_, rfl⟩

/-- CLAIM C10 (amended). When the tolerance range is nonempty and both the
query and the first eligible candidate sequence are nonempty, the first
candidate always passes the pruning test against the infinite initial
threshold (its Keogh bound is a finite value), undergoes the full dtw
alignment, and contributes exactly one entry to the returned lists, whose
lengths agree. -/
theorem C10_first_candidate_scored (query : List Nat) (query_length : ℚ)
    (sequences : List (List Nat)) (lengths : List ℚ) (length_tolerance : ℚ) (radius : Nat)
    (gully : ℚ) (penalty : Nat)
    (hq : query ≠ [])
    (hlt : searchsorted_left lengths ((1 - length_tolerance) * query_length)
        < searchsorted_right lengths ((1 + length_tolerance) * query_length))
    (hseq : sequences.getD
        (searchsorted_left lengths ((1 - length_tolerance) * query_length)) [] ≠ []) :
    (match_one_sequence query query_length sequences lengths length_tolerance radius
        gully penalty).1.count
      (searchsorted_left lengths ((1 - length_tolerance) * query_length)) = 1
  ∧ (match_one_sequence query query_length sequences lengths length_tolerance radius
        gully penalty).1.length
    = (match_one_sequence query query_length sequences lengths length_tolerance radius
        gully penalty).2.length := by
  set start := searchsorted_left lengths ((1 - length_tolerance) * query_length) with hstartd
  set stop := searchsorted_right lengths ((1 + length_tolerance) * query_length) with hstopd
  set u := (keogh_envelopes query radius).1 with hud
  set l := (keogh_envelopes query radius).2 with hld
  set st := (List.range' start (stop - start)).foldl
    (match_step query sequences gully penalty u l) ⟨[], [], FVal.inf⟩ with hstd
  have hres : match_one_sequence query query_length sequences lengths length_tolerance
      radius gully penalty
      = ((argsort st.score_list).map (fun i => st.match_list.getD i 0),
        (argsort st.score_list).map (fun i => st.score_list.getD i FVal.nan)) := rfl
  obtain ⟨k, hk⟩ : ∃ k, stop - start = k + 1 := ⟨stop - start - 1, by omega⟩
  have hrange : List.range' start (stop - start) = start :: List.range' (start + 1) k := by
    rw [hk, List.range'_succ]
  have hulen : u.length = query.length := by
    rw [hud]
    show (maximum_filter1d query radius).length = query.length
    unfold maximum_filter1d
    rw [List.length_map, List.length_range]
  have hune : u ≠ [] := by
    intro hcon
    apply hq
    apply List.length_eq_zero.mp
    rw [← hulen, hcon]
    rfl
  obtain ⟨q0, hq0⟩ := lb_keogh_val u l (sequences.getD start []) hune hseq
  have hstep1 : match_step query sequences gully penalty u l ⟨[], [], FVal.inf⟩ start
      = ⟨[start], [dtw (int_dist query (sequences.getD start [])) gully penalty],
          if flt (dtw (int_dist query (sequences.getD start [])) gully penalty) FVal.inf
          then dtw (int_dist query (sequences.getD start [])) gully penalty
          else FVal.inf⟩ := by
    unfold match_step
    rw [if_pos (by rw [hq0]; rfl : flt (lb_keogh u l (sequences.getD start []))
      (⟨[], [], FVal.inf⟩ : MatchState).best = true)]
    rfl
  have hcount_st : st.match_list.count start = 1 := by
    rw [hstd, hrange, List.foldl_cons, hstep1,
      match_fold_count_ne query sequences gully penalty u l _ _ start
        (fun n hn => by rw [List.mem_range'_1] at hn; omega)]
    simp
  have hlen : st.match_list.length = st.score_list.length :=
    match_fold_len_eq query sequences gully penalty u l _ ⟨[], [], FVal.inf⟩ rfl
  constructor
  · rw [hres]
    show ((argsort st.score_list).map (fun i => st.match_list.getD i 0)).count start = 1
    rw [(argsort_result_perm st hlen).count_eq start]
    exact hcount_st
  · rw [hres]
    show ((argsort st.score_list).map (fun i => st.match_list.getD i 0)).length
      = ((argsort st.score_list).map (fun i => st.score_list.getD i FVal.nan)).length
    rw [List.length_map, List.length_map]

/-- CLAIM C10 witness. The amended claim instantiated on a concrete call with
two in-tolerance nonempty candidates: the first candidate index appears
exactly once among the returned matches. -/
theorem C10_witness :
    (match_one_sequence [1, 2] 2 [[1, 3], [1, 2]] [2, 2] 0 1 0 0).1.count
      (searchsorted_left [2, 2] ((1 - 0) * 2)) = 1
  ∧ (match_one_sequence [1, 2] 2 [[1, 3], [1, 2]] [2, 2] 0 1 0 0).1.length
    = (match_one_sequence [1, 2] 2 [[1, 3], [1, 2]] [2, 2] 0 1 0 0).2.length :=
  C10_first_candidate_scored [1, 2] 2 [[1, 3], [1, 2]] [2, 2] 0 1 0 0
    (by decide) (by decide) (by decide)

/-- Rectangular shape predicate for the matrix buffers. -/
def rect_shape (M : List (List Nat)) (rows cols : Nat) : Prop :=
  M.length = rows ∧ ∀ row ∈ M, row.length = cols

theorem rect_getD_len (M : List (List Nat)) (rows cols : Nat) (h : rect_shape M rows cols)
    (i : Nat) (hi : i < rows) : (M.getD i []).length = cols := by
  have hi2 : i < M.length := by
    rw [h.1]
    exact hi
  rw [List.getD_eq_getElem M [] hi2]
  exact h.2 _ (List.getElem_mem hi2)

theorem rect_headD_len (M : List (List Nat)) (rows cols : Nat) (h : rect_shape M rows cols)
    (hrows : 0 < rows) : (M.headD []).length = cols := by
  cases M with
  | nil =>
    exfalso
    have := h.1
    simp at this
    omega
  | cons hd tl => exact h.2 hd (List.mem_cons_self hd tl)

theorem mset_rect (M : List (List Nat)) (rows cols : Nat) (i j : Nat) (v : Nat)
    (h : rect_shape M rows cols) (hi : i < rows) : rect_shape (mset M i j v) rows cols := by
  constructor
  · rw [mset, List.length_set]
    exact h.1
  · intro row hrow
    rcases List.mem_or_eq_of_mem_set hrow with hmem | heq
    · exact h.2 row hmem
    · rw [heq, List.length_set]
      exact rect_getD_len M rows cols h i hi

theorem mget_mset_self (M : List (List Nat)) (i j : Nat) (v : Nat)
    (hi : i < M.length) (hj : j < (M.getD i []).length) :
    mget (mset M i j v) i j = v := by
  unfold mget mset
  have h1 : i < (M.set i ((M.getD i []).set j v)).length := by
    rw [List.length_set]
    exact hi
  rw [List.getD_eq_getElem _ _ h1, List.getElem_set_self]
  have h2 : j < ((M.getD i []).set j v).length := by
    rw [List.length_set]
    exact hj
  rw [List.getD_eq_getElem _ _ h2, List.getElem_set_self]

theorem mget_mset_ne (M : List (List Nat)) (i j : Nat) (v : Nat) (a b : Nat)
    (hne : a ≠ i ∨ b ≠ j) : mget (mset M i j v) a b = mget M a b := by
  unfold mget mset
  by_cases hai : a = i
  · subst hai
    have hbj : b ≠ j := by tauto
    by_cases hlen : a < M.length
    · have h1 : a < (M.set a ((M.getD a []).set j v)).length := by
        rw [List.length_set]
        exact hlen
      rw [List.getD_eq_getElem _ _ h1, List.getElem_set_self,
        List.getD_eq_getElem?_getD ((M.getD a []).set j v) b,
        List.getD_eq_getElem?_getD (M.getD a []) b,
        List.getElem?_set_ne (fun hcon => hbj hcon.symm)]
    · rw [List.set_eq_of_length_le (by omega)]
  · rw [List.getD_eq_getElem?_getD ((M.set i ((M.getD i []).set j v))) a,
      List.getD_eq_getElem?_getD M a, List.getElem?_set_ne (fun hcon => hai hcon.symm)]

/-- The value added by one relaxation step to cell (i + 1, j + 1) of the cost
matrix is the minimum of the diagonal predecessor and the two penalized
predecessors: whichever guard fires adds exactly this minimum, and the case
of no guard firing is unreachable. -/
theorem dtw_cell_step_D (pen : Nat) (s : DtwState) (i j : Nat) :
    (dtw_cell_step pen s i j).D
      = mset s.D (i + 1) (j + 1) (mget s.D (i + 1) (j + 1)
          + min (mget s.D i j) (min (mget s.D i (j + 1) + pen) (mget s.D (i + 1) j + pen))) := by
  unfold dtw_cell_step
  split_ifs with h1 h2 h3
  · show mset s.D (i + 1) (j + 1) (mget s.D (i + 1) (j + 1) + mget s.D i j) = _
    congr 1
    omega
  · show mset s.D (i + 1) (j + 1) (mget s.D (i + 1) (j + 1) + mget s.D i (j + 1) + pen) = _
    rw [Nat.add_assoc]
    congr 1
    omega
  · show mset s.D (i + 1) (j + 1) (mget s.D (i + 1) (j + 1) + mget s.D (i + 1) j + pen) = _
    rw [Nat.add_assoc]
    congr 1
    omega
  · exfalso
    omega

/-- Pointwise monotonicity of the relaxation in the penalty: folding the cell
step with a smaller penalty over a pointwise smaller cost matrix keeps every
cumulative cost entry below the one produced with the larger penalty, and the
rectangular shape of both matrices is preserved. -/
theorem dtw_cells_mono (p1 p2 : Nat) (hp : p1 ≤ p2) (rows cols : Nat) :
    ∀ (cells : List (Nat × Nat)) (s1 s2 : DtwState),
      (∀ c ∈ cells, c.1 + 1 < rows ∧ c.2 + 1 < cols) →
      rect_shape s1.D rows cols → rect_shape s2.D rows cols →
      (∀ a b, mget s1.D a b ≤ mget s2.D a b) →
      rect_shape ((cells.foldl (fun t c => dtw_cell_step p1 t c.1 c.2) s1)).D rows cols
      ∧ rect_shape ((cells.foldl (fun t c => dtw_cell_step p2 t c.1 c.2) s2)).D rows cols
      ∧ ∀ a b, mget ((cells.foldl (fun t c => dtw_cell_step p1 t c.1 c.2) s1)).D a b
          ≤ mget ((cells.foldl (fun t c => dtw_cell_step p2 t c.1 c.2) s2)).D a b := by
  intro cells
  induction cells with
  | nil =>
    intro s1 s2 _ h1 h2 hle
    exact ⟨h1, h2, hle⟩
  | cons c t ih =>
    intro s1 s2 hin h1 h2 hle
    rw [List.foldl_cons, List.foldl_cons]
    obtain ⟨hc1, hc2⟩ := hin c (List.mem_cons_self c t)
    have hstep1 : rect_shape (dtw_cell_step p1 s1 c.1 c.2).D rows cols := by
      rw [dtw_cell_step_D]
      exact mset_rect s1.D rows cols (c.1 + 1) (c.2 + 1) _ h1 (by omega)
    have hstep2 : rect_shape (dtw_cell_step p2 s2 c.1 c.2).D rows cols := by
      rw [dtw_cell_step_D]
      exact mset_rect s2.D rows cols (c.1 + 1) (c.2 + 1) _ h2 (by omega)
    apply ih _ _ (fun d hd => hin d (List.mem_cons_of_mem c hd)) hstep1 hstep2
    intro a b
    rw [dtw_cell_step_D, dtw_cell_step_D]
    by_cases hab : a = c.1 + 1 ∧ b = c.2 + 1
    · obtain ⟨rfl, rfl⟩ := hab
      rw [mget_mset_self s1.D _ _ _ (by rw [h1.1]; omega)
          (by rw [rect_getD_len s1.D rows cols h1 _ (by omega)]; omega),
        mget_mset_self s2.D _ _ _ (by rw [h2.1]; omega)
          (by rw [rect_getD_len s2.D rows cols h2 _ (by omega)]; omega)]
      have q1 := hle c.1 c.2
      have q2 := hle c.1 (c.2 + 1)
      have q3 := hle (c.1 + 1) c.2
      have q4 := hle (c.1 + 1) (c.2 + 1)
      omega
    · have hne : a ≠ c.1 + 1 ∨ b ≠ c.2 + 1 := by tauto
      rw [mget_mset_ne _ _ _ _ _ _ hne, mget_mset_ne _ _ _ _ _ _ hne]
      exact hle a b

theorem row_major_cells_mem (rows cols : Nat) (c : Nat × Nat)
    (hc : c ∈ row_major_cells rows cols) : c.1 + 1 < rows ∧ c.2 + 1 < cols := by
  unfold row_major_cells at hc
  rw [List.mem_flatten] at hc
  obtain ⟨l, hl, hcl⟩ := hc
  rw [List.mem_map] at hl
  obtain ⟨i, hi, rfl⟩ := hl
  rw [List.mem_map] at hcl
  obtain ⟨j, hj, rfl⟩ := hcl
  rw [List.mem_range] at hi hj
  constructor <;> simp <;> omega

/-- The endpoint selected by dtw_traceback carries a cost bounded above by
every cost in the restricted last column and restricted last row, and the
endpoint lies in the restricted last column or the restricted last row. -/
theorem traceback_cost_min (M : List (List Nat)) (g : Nat)
    (hgr : g < M.length) (hgc : g < (M.headD []).length) :
    (∀ k, g ≤ k → k < M.length →
        mget M (dtw_traceback M g).1 (dtw_traceback M g).2
          ≤ mget M k ((M.headD []).length - 1))
  ∧ (∀ k, g ≤ k → k < (M.headD []).length →
        mget M (dtw_traceback M g).1 (dtw_traceback M g).2
          ≤ mget M (M.length - 1) k)
  ∧ ((∃ k, g ≤ k ∧ k < M.length ∧ dtw_traceback M g = (k, (M.headD []).length - 1))
    ∨ (∃ k, g ≤ k ∧ k < (M.headD []).length ∧ dtw_traceback M g = (M.length - 1, k))) := by
  set rows := M.length with hrowsd
  set cols := (M.headD []).length with hcolsd
  set Lcol := (List.range' g (rows - g)).map (fun k => mget M k (cols - 1)) with hLcol
  set Lrow := (List.range' g (cols - g)).map (fun k => mget M (rows - 1) k) with hLrow
  have hLcolLen : Lcol.length = rows - g := by
    rw [hLcol, List.length_map, List.length_range']
  have hLrowLen : Lrow.length = cols - g := by
    rw [hLrow, List.length_map, List.length_range']
  have hLcolNe : Lcol ≠ [] := by
    intro hcon
    rw [hcon] at hLcolLen
    simp at hLcolLen
    omega
  have hLrowNe : Lrow ≠ [] := by
    intro hcon
    rw [hcon] at hLrowLen
    simp at hLrowLen
    omega
  have hica : argmin Lcol < rows - g := by
    have := argmin_lt_length Lcol hLcolNe
    omega
  have hjca : argmin Lrow < cols - g := by
    have := argmin_lt_length Lrow hLrowNe
    omega
  have hcolmin : ∀ k, g ≤ k → k < rows →
      mget M (argmin Lcol + g) (cols - 1) ≤ mget M k (cols - 1) := by
    intro k hk1 hk2
    have ht : k - g < rows - g := by omega
    have hcolval : Lcol.getD (argmin Lcol) 0 = mget M (g + argmin Lcol) (cols - 1) :=
      getD_range'_map g (rows - g) _ (argmin Lcol) hica
    have := argmin_le_getD Lcol (k - g) (by omega)
    rw [hcolval, getD_range'_map g (rows - g) _ (k - g) ht] at this
    have hgk : g + (k - g) = k := by omega
    have hcomm : g + argmin Lcol = argmin Lcol + g := by omega
    rw [hgk, hcomm] at this
    exact this
  have hrowmin : ∀ k, g ≤ k → k < cols →
      mget M (rows - 1) (argmin Lrow + g) ≤ mget M (rows - 1) k := by
    intro k hk1 hk2
    have ht : k - g < cols - g := by omega
    have hrowval : Lrow.getD (argmin Lrow) 0 = mget M (rows - 1) (g + argmin Lrow) :=
      getD_range'_map g (cols - g) _ (argmin Lrow) hjca
    have := argmin_le_getD Lrow (k - g) (by omega)
    rw [hrowval, getD_range'_map g (cols - g) _ (k - g) ht] at this
    have hgk : g + (k - g) = k := by omega
    have hcomm : g + argmin Lrow = argmin Lrow + g := by omega
    rw [hgk, hcomm] at this
    exact this
  by_cases hcond : mget M (rows - 1) (argmin Lrow + g) > mget M (argmin Lcol + g) (cols - 1)
  · have he : dtw_traceback M g = (argmin Lcol + g, cols - 1) := by
      show (if mget M (rows - 1) (argmin Lrow + g) > mget M (argmin Lcol + g) (cols - 1)
        then (argmin Lcol + g, cols - 1) else (rows - 1, argmin Lrow + g)) = _
      rw [if_pos hcond]
    rw [he]
    refine ⟨fun k hk1 hk2 => hcolmin k hk1 hk2, fun k hk1 hk2 => ?_, ?_⟩
    · exact le_trans (le_of_lt hcond) (hrowmin k hk1 hk2)
    · exact Or.inl ⟨argmin Lcol + g, by omega, by omega, rfl⟩
  · have he : dtw_traceback M g = (rows - 1, argmin Lrow + g) := by
      show (if mget M (rows - 1) (argmin Lrow + g) > mget M (argmin Lcol + g) (cols - 1)
        then (argmin Lcol + g, cols - 1) else (rows - 1, argmin Lrow + g)) = _
      rw [if_neg hcond]
    rw [he]
    refine ⟨fun k hk1 hk2 => ?_, fun k hk1 hk2 => hrowmin k hk1 hk2, ?_⟩
    · exact le_trans (le_of_not_lt hcond) (hcolmin k hk1 hk2)
    · exact Or.inr ⟨argmin Lrow + g, by omega, by omega, rfl⟩

/-- CLAIM C7 counterexample. A fixed distance matrix and gully where raising
the penalty from 2 to 7 lowers the normalized dtw score from 3 to 2: the
final score is not monotone in the penalty. -/
theorem C7_score_not_monotone_counterexample :
    dtw [[2, 7, 8, 0], [8, 1, 8, 5], [0, 1, 1, 6]] (1 / 2) 2 = FVal.val 3
  ∧ dtw [[2, 7, 8, 0], [8, 1, 8, 5], [0, 1, 1, 6]] (1 / 2) 7 = FVal.val 2
  ∧ (2 : Nat) ≤ 7
  ∧ fle (dtw [[2, 7, 8, 0], [8, 1, 8, 5], [0, 1, 1, 6]] (1 / 2) 2)
      (dtw [[2, 7, 8, 0], [8, 1, 8, 5], [0, 1, 1, 6]] (1 / 2) 7) = false := by
  exact ⟨by decide, by decide, by decide, by decide⟩

/-- CLAIM C7 (amended). For a fixed rectangular distance matrix and fixed
gully in the unit interval, the cumulative (unnormalized) cost at the
endpoint selected by dtw is monotonically non-decreasing in the penalty; the
path-length-normalized final score is not monotone. -/
theorem C7_endpoint_cost_monotone (D : List (List Nat)) (gully : ℚ) (p1 p2 : Nat)
    (hp : p1 ≤ p2) (hg0 : 0 ≤ gully) (hg1 : gully < 1)
    (hrows : 0 < D.length) (hcols : 0 < (D.headD []).length)
    (hrect : ∀ row ∈ D, row.length = (D.headD []).length) :
    dtw_endpoint_cost D gully p1 ≤ dtw_endpoint_cost D gully p2 := by
  set rows := D.length with hrowsd
  set cols := (D.headD []).length with hcolsd
  obtain ⟨hshape1, hshape2, hdom⟩ := dtw_cells_mono p1 p2 hp rows cols
    (row_major_cells rows cols) ⟨D, dtw_zeros D⟩ ⟨D, dtw_zeros D⟩
    (fun c hc => row_major_cells_mem rows cols c hc) ⟨rfl, hrect⟩ ⟨rfl, hrect⟩
    (fun a b => le_refl _)
  set F1 := ((row_major_cells rows cols).foldl
    (fun t c => dtw_cell_step p1 t c.1 c.2) ⟨D, dtw_zeros D⟩).D with hF1d
  set F2 := ((row_major_cells rows cols).foldl
    (fun t c => dtw_cell_step p2 t c.1 c.2) ⟨D, dtw_zeros D⟩).D with hF2d
  set g := dtw_offset gully rows cols with hgd
  have hglt : g < min rows cols := dtw_offset_lt gully rows cols hg0 hg1 hrows hcols
  have hlen1 : F1.length = rows := hshape1.1
  have hlen2 : F2.length = rows := hshape2.1
  have hcols1 : (F1.headD []).length = cols := rect_headD_len F1 rows cols hshape1 hrows
  have hcols2 : (F2.headD []).length = cols := rect_headD_len F2 rows cols hshape2 hrows
  obtain ⟨hm1col, hm1row, _⟩ := traceback_cost_min F1 g (by omega) (by omega)
  obtain ⟨_, _, hpos2⟩ := traceback_cost_min F2 g (by omega) (by omega)
  rw [hlen1, hcols1] at hm1col hm1row
  rw [hlen2, hcols2] at hpos2
  have hgoal1 : dtw_endpoint_cost D gully p1
      = mget F1 (dtw_traceback F1 g).1 (dtw_traceback F1 g).2 := rfl
  have hgoal2 : dtw_endpoint_cost D gully p2
      = mget F2 (dtw_traceback F2 g).1 (dtw_traceback F2 g).2 := rfl
  rw [hgoal1, hgoal2]
  rcases hpos2 with ⟨k, hk1, hk2, heq⟩ | ⟨k, hk1, hk2, heq⟩
  · calc mget F1 (dtw_traceback F1 g).1 (dtw_traceback F1 g).2
        ≤ mget F1 k (cols - 1) := hm1col k hk1 hk2
      _ ≤ mget F2 k (cols - 1) := hdom k (cols - 1)
      _ = mget F2 (dtw_traceback F2 g).1 (dtw_traceback F2 g).2 := by rw [heq]
  · calc mget F1 (dtw_traceback F1 g).1 (dtw_traceback F1 g).2
        ≤ mget F1 (rows - 1) k := hm1row k hk1 hk2
      _ ≤ mget F2 (rows - 1) k := hdom (rows - 1) k
      _ = mget F2 (dtw_traceback F2 g).1 (dtw_traceback F2 g).2 := by rw [heq]

/-- CLAIM C7 witness. The amended monotonicity instantiated on the concrete
counterexample matrix: the unnormalized endpoint cost at penalty 2 is below
the one at penalty 7 even though the normalized score decreases. -/
theorem C7_witness :
    dtw_endpoint_cost [[2, 7, 8, 0], [8, 1, 8, 5], [0, 1, 1, 6]] (1 / 2) 2
      ≤ dtw_endpoint_cost [[2, 7, 8, 0], [8, 1, 8, 5], [0, 1, 1, 6]] (1 / 2) 7 :=
  C7_endpoint_cost_monotone [[2, 7, 8, 0], [8, 1, 8, 5], [0, 1, 1, 6]] (1 / 2) 2 7
    (by decide) (by decide) (by decide) (by decide) (by decide) (by decide)

end ClaimProofs

end HashMatch
